import Mathlib

/-!
Verification development for the remotion-replicator repository.

Two subsystems are embedded from the TypeScript source:

1. The markdown section segmenter of src/components/AnalysisView.tsx
   (the React.useMemo block splitting the AI response at heading or
   numbered-item boundaries, plus title/body extraction, prompt-section
   classification, and fenced-code-block extraction).

2. The usage-quota accounting of src/api/analyze.ts (period reset,
   allowance lookup, limit check, usage increment) together with the
   companion helpers canAnalyze in src/types.ts and the remaining
   computation of the AuthButton/UsageAlert components.

Strings are modelled as List Char (a JS string is a sequence of code
units; all inputs of interest here are ASCII).  JS Date values are
modelled as civil local datetimes ordered lexicographically, which is
how two Date values in the same timezone compare.
-/

namespace RemRep

/-! ## Characters and trimming

The JS String.prototype.trim removes leading and trailing whitespace.
wsChar covers the ASCII whitespace characters JS trims (space, tab,
newline, carriage return, vertical tab, form feed); the documents in
scope are ASCII. -/

def wsChar (c : Char) : Bool :=
  c == ' ' || c == '\t' || c == '\n' || c == '\r' || c == '\x0b' || c == '\x0c'

/-- Leading-whitespace removal, the first half of JS trim. -/
def dropLeading (l : List Char) : List Char := l.dropWhile wsChar

/-- Trailing-whitespace removal, the second half of JS trim: the
longest all-whitespace suffix is removed. -/
def dropTrailing : List Char → List Char
  | [] => []
  | x :: t =>
    let r := dropTrailing t
    if r.isEmpty then (if wsChar x then [] else [x]) else x :: r

/-- Model of JS String.prototype.trim on a character list. -/
def trimList (l : List Char) : List Char := dropTrailing (dropLeading l)

/-! ## The boundary pattern

AnalysisView.tsx line 22 splits the document with the lookahead regex
(?=\n#{1,3} |\n\d+\. ) : a newline immediately followed by one to three
hash marks and a space, or a newline followed by one or more decimal
digits, a dot and a space. -/

/-- Matches the regex fragment #{1,3} right after the newline: one, two
or three hash marks followed by a space (four or more hash marks fail,
exactly as the backtracking regex does). -/
def headingAfter : List Char → Bool
  | '#' :: ' ' :: _ => true
  | '#' :: '#' :: ' ' :: _ => true
  | '#' :: '#' :: '#' :: ' ' :: _ => true
  | _ => false

/-- Matches a space as the next character. -/
def spaceNext : List Char → Bool
  | ' ' :: _ => true
  | _ => false

/-- Matches the tail of the fragment \d+\. once at least one digit has
been read: further digits, then a dot, then a space. -/
def numRest : List Char → Bool
  | [] => false
  | c :: rest => if c.isDigit then numRest rest
    else if c = '.' then spaceNext rest else false

/-- Matches the regex fragment \d+\. right after the newline: one or
more decimal digits, a dot, a space. -/
def numberAfter : List Char → Bool
  | [] => false
  | c :: rest => c.isDigit && numRest rest

/-- The lookahead boundary of AnalysisView.tsx line 22: the suffix
starting at a split position must begin with a newline followed by a
heading marker run or a numbered-item prefix. -/
def isBoundary : List Char → Bool
  | '\n' :: rest => headingAfter rest || numberAfter rest
  | _ => false

/-! ## The lookahead split

content.split(regex) with a zero-width lookahead regex cuts the string
before every interior match position (a match at index 0 produces no
empty leading element), discarding nothing: each boundary starts the
next chunk.  splitGo scans the remainder l keeping the (reversed)
current chunk acc, which is nonempty at every call. -/

def splitGo : List Char → List Char → List (List Char)
  | [], acc => [acc.reverse]
  | c :: rest, acc =>
    if isBoundary (c :: rest) then acc.reverse :: splitGo rest [c]
    else splitGo rest (c :: acc)

/-- Model of content.split(/(?=\n#{1,3} |\n\d+\. )/g).  The empty
string splits into one empty chunk, as in JS. -/
def splitChunks (doc : List Char) : List (List Char) :=
  match doc with
  | [] => [[]]
  | c :: rest => splitGo rest [c]

/-- Model of AnalysisView.tsx lines 23-24: split, trim each chunk,
discard empty chunks, keeping the original order. -/
def sections (doc : List Char) : List (List Char) :=
  ((splitChunks doc).map trimList).filter (fun s => !s.isEmpty)

/-! ## Title and body extraction

AnalysisView.tsx lines 39-41: the chunk is matched against
^(#{1,3} |\d+\. )(.*) ; group 2 of the first line is the title, with
the fallback "Analysis Overview" when the prefix does not match, and
the body is the chunk with the matched prefix and title line removed,
then trimmed. -/

/-- Splits off a leading heading-marker prefix (#{1,3} followed by a
space), returning the remainder after the prefix. -/
def headMarkSplit : List Char → Option (List Char)
  | '#' :: ' ' :: t => some t
  | '#' :: '#' :: ' ' :: t => some t
  | '#' :: '#' :: '#' :: ' ' :: t => some t
  | _ => none

/-- Splits off a leading numbered-item prefix (\d+\. followed by a
space), returning the remainder after the prefix. -/
def numMarkSplit (l : List Char) : Option (List Char) :=
  let ds := l.takeWhile (fun c => c.isDigit)
  let rest := l.dropWhile (fun c => c.isDigit)
  if ds.isEmpty then none
  else match rest with
    | '.' :: ' ' :: t => some t
    | _ => none

/-- The anchored prefix match of the title regex, first alternative
first, returning the remainder after group 1. -/
def markSplit (l : List Char) : Option (List Char) :=
  match headMarkSplit l with
  | some t => some t
  | none => numMarkSplit l

/-- Model of the title extraction (group 2 is the rest of the first
line, since the dot does not match a newline), with the fallback label
of AnalysisView.tsx line 40. -/
def titleOf (s : List Char) : List Char :=
  match markSplit s with
  | some rest => rest.takeWhile (fun c => c ≠ '\n')
  | none => "Analysis Overview".data

/-- Model of the body extraction of AnalysisView.tsx line 41: the
replace removes the matched prefix and title line (everything from the
first newline on survives); when the regex does not match, replace is
the identity; the result is trimmed. -/
def bodyOf (s : List Char) : List Char :=
  match markSplit s with
  | some rest => trimList (rest.dropWhile (fun c => c ≠ '\n'))
  | none => trimList s

/-! ## Fenced code block extraction

AnalysisView.tsx line 44 matches the body against the regex with three
backticks, an optional markdown or text tag, a lazy any-character
group, and three closing backticks.  The leftmost-then-lazy semantics
amount to: find the first triple-backtick fence, strip an immediately
following markdown or text tag, and capture up to the next
triple-backtick fence. -/

/-- Returns the suffix right after the leftmost triple-backtick fence. -/
def findFence : List Char → Option (List Char)
  | '`' :: '`' :: '`' :: t => some t
  | _ :: t => findFence t
  | [] => none

/-- Strips the optional markdown or text tag right after the fence
(the regex alternation tries markdown first). -/
def stripTag (l : List Char) : List Char :=
  if l.take 8 = "markdown".data then l.drop 8
  else if l.take 4 = "text".data then l.drop 4
  else l

/-- Collects characters up to the next triple-backtick fence, or fails
when no closing fence exists. -/
def takeUntilFence : List Char → Option (List Char)
  | '`' :: '`' :: '`' :: _ => some []
  | c :: t => (takeUntilFence t).map (fun r => c :: r)
  | [] => none

/-- Model of the capture group of the code-block regex of
AnalysisView.tsx line 44. -/
def extractCode (body : List Char) : Option (List Char) :=
  (findFence body).bind (fun rest => takeUntilFence (stripTag rest))

/-! ## Prompt-section classification and the copy action -/

/-- Bool test for a list being a prefix of another, used for substring
search below. -/
def listStarts : List Char → List Char → Bool
  | [], _ => true
  | _ :: _, [] => false
  | a :: as, b :: bs => a == b && listStarts as bs

/-- Model of JS String.prototype.includes. -/
def containsSub (needle : List Char) : List Char → Bool
  | [] => needle.isEmpty
  | c :: t => listStarts needle (c :: t) || containsSub needle t

/-- Model of title.toLowerCase() (ASCII case folding suffices here). -/
def lowerList (l : List Char) : List Char := l.map Char.toLower

/-- Model of AnalysisView.tsx line 45: the section is the prompt
section exactly when its lowercased title contains "prompt". -/
def isPromptSection (s : List Char) : Bool :=
  containsSub ("prompt".data) (lowerList (titleOf s))

/-- Model of the copy handler argument of AnalysisView.tsx line 55:
the trimmed capture of the code block for a prompt section that has
one, the full chunk otherwise. -/
def copyText (s : List Char) : List Char :=
  if isPromptSection s then
    match extractCode (bodyOf s) with
    | some code => trimList code
    | none => s
  else s

/-! ## Chunk start offsets

offsetsAux lists the start offset of every chunk of a chunk list laid
end to end, beginning at o.  For splitChunks it characterises the set
of positions where the split cut the document. -/

def offsetsAux : List (List Char) → Nat → List Nat
  | [], _ => []
  | c :: cs, o => o :: offsetsAux cs (o + c.length)

/-- Reconstruction of the document from its sections: the boundary
newline that trimming removed from every chunk after the first is
reinserted before the corresponding section. -/
def reconstruct (doc : List Char) : List Char :=
  match sections doc with
  | [] => []
  | s :: ss => s ++ (ss.map (fun t => '\n' :: t)).flatten

/-! ## The quota ledger

The account row of the users table carries plan, usage_count and
period_reset_at.  JS Date values built from local civil fields are
modelled as civil local datetimes; two Dates of the same timezone
compare like their civil fields compared lexicographically (year,
month, day, time of day), month being the JS 0-based month. -/

structure LocalDate where
  year : Int
  month : Nat
  day : Nat
  msOfDay : Nat
deriving DecidableEq, Repr

/-- Lexicographic comparison of civil local datetimes; this is the
order in which the epoch-milliseconds comparison of the corresponding
JS Dates resolves. -/
def dateLe (a b : LocalDate) : Bool :=
  if a.year < b.year then true
  else if b.year < a.year then false
  else if a.month < b.month then true
  else if b.month < a.month then false
  else if a.day < b.day then true
  else if b.day < a.day then false
  else a.msOfDay ≤ b.msOfDay

/-- Strict version of the comparison. -/
def dateLt (a b : LocalDate) : Bool :=
  if a.year < b.year then true
  else if b.year < a.year then false
  else if a.month < b.month then true
  else if b.month < a.month then false
  else if a.day < b.day then true
  else if b.day < a.day then false
  else a.msOfDay < b.msOfDay

/-- Model of new Date(now.getFullYear(), now.getMonth() + 1, 1) from
analyze.ts line 221 (and types.ts line 347): the first instant of the
month after now, the JS Date constructor normalising a month argument
of 12 into January of the next year. -/
def nextMonthStart (now : LocalDate) : LocalDate :=
  { year := now.year + (now.month + 1) / 12
    month := (now.month + 1) % 12
    day := 1
    msOfDay := 0 }

/-- Model of the PLAN_LIMITS record (analyze.ts lines 162-166,
types.ts lines 327-331, AuthButton lines 5-9): a lookup that is
undefined for unknown plan names. -/
def planLimits : String → Option Nat
  | "free" => some 3
  | "starter" => some 30
  | "pro" => some 150
  | _ => none

/-- Model of PLAN_LIMITS[profile.plan] || 3 from analyze.ts line 233:
an unknown plan falls back to the free allowance. -/
def allowance (plan : String) : Nat := (planLimits plan).getD 3

/-- The account row as far as the quota logic reads and writes it. -/
structure Account where
  plan : String
  usageCount : Nat
  periodResetAt : LocalDate
deriving DecidableEq, Repr

/-- Model of analyze.ts lines 214-230: when now has reached the period
reset boundary the usage count is zeroed and the boundary advances to
the first instant of the month after now; otherwise the account is
untouched. -/
def checkAndReset (a : Account) (now : LocalDate) : Account :=
  if dateLe a.periodResetAt now then
    { a with usageCount := 0, periodResetAt := nextMonthStart now }
  else a

/-- Outcome of one consume attempt, carrying the payload fields the
handler returns (analyze.ts lines 234-241 for the 429 body, lines
323-330 for the 200 usage object). -/
inductive ConsumeOutcome where
  | success (current : Nat) (limit : Nat) (plan : String)
  | quotaExceeded (plan : String) (usage : Nat) (limit : Nat)
deriving DecidableEq, Repr

/-- The quota phase of the analyze handler run to completion on one
request (analyze.ts lines 214-241 and 307-311): reset check first,
then the limit check against the possibly reset usage, then on the
non-rejected path the write of currentUsage + 1.  The second component
is the account row as persisted after the call. -/
def tryConsume (a : Account) (now : LocalDate) : ConsumeOutcome × Account :=
  let a1 := checkAndReset a now
  let limit := allowance a1.plan
  if a1.usageCount ≥ limit then
    (ConsumeOutcome.quotaExceeded a1.plan a1.usageCount limit, a1)
  else
    (ConsumeOutcome.success (a1.usageCount + 1) limit a1.plan,
      { a1 with usageCount := a1.usageCount + 1 })

/-- Iterated consumption: the persisted account after n sequential
calls of tryConsume at the same instant. -/
def consumeIter (a : Account) (now : LocalDate) : Nat → Account
  | 0 => a
  | n + 1 => (tryConsume (consumeIter a now n) now).2

/-! ## The full handler paths

The failure paths of the analyze handler (analyze.ts lines 202-335)
are driven by conditions the embedding takes as request parameters:
whether the profile row exists, whether the body carries a video
reference, whether the storage download or URL fetch succeeds, and
whether the AI call succeeds. -/

structure RequestEnv where
  profileFound : Bool
  hasInput : Bool
  downloadOk : Bool
  aiOk : Bool
deriving DecidableEq, Repr

inductive HandlerResponse where
  | notFound
  | quota (plan : String) (usage : Nat) (limit : Nat)
  | badRequest
  | serverError
  | ok (current : Nat) (limit : Nat) (plan : String)
deriving DecidableEq, Repr

/-- Whether the response is one of the failure responses (status 404,
429, 400 or 500). -/
def isFailureResp : HandlerResponse → Bool
  | HandlerResponse.ok _ _ _ => false
  | _ => true

/-- Model of the analyze handler after authentication, in the order
the code takes its branches: profile lookup (404), period reset
(persisted immediately), limit check (429), body validation (400),
video download (400), AI call (500), then the usage increment and the
200 response.  The second component is the persisted account row when
the handler returns. -/
def handler (env : RequestEnv) (a : Account) (now : LocalDate) :
    HandlerResponse × Account :=
  if !env.profileFound then (HandlerResponse.notFound, a)
  else
    let a1 := checkAndReset a now
    let limit := allowance a1.plan
    if a1.usageCount ≥ limit then
      (HandlerResponse.quota a1.plan a1.usageCount limit, a1)
    else if !env.hasInput then (HandlerResponse.badRequest, a1)
    else if !env.downloadOk then (HandlerResponse.badRequest, a1)
    else if !env.aiOk then (HandlerResponse.serverError, a1)
    else (HandlerResponse.ok (a1.usageCount + 1) limit a1.plan,
      { a1 with usageCount := a1.usageCount + 1 })

/-! ## The companion quota helpers -/

/-- Model of canAnalyze from types.ts lines 334-358.  In the reset
branch it reports allowed with the full allowance as remaining; in the
in-period branch it returns remaining = limit - usage_count without
clamping, allowed exactly when that difference is positive.  A plan
missing from PLAN_LIMITS makes the JS arithmetic produce NaN; that
path is modelled as none.  The third component is the persisted
account row after the call. -/
def canAnalyzeModel (a : Account) (now : LocalDate) :
    Option (Bool × Int × Account) :=
  match planLimits a.plan with
  | none => none
  | some l =>
    if dateLe a.periodResetAt now then
      some (true, (l : Int),
        { a with usageCount := 0, periodResetAt := nextMonthStart now })
    else
      some (decide ((l : Int) - (a.usageCount : Int) > 0),
        (l : Int) - (a.usageCount : Int), a)

/-- Model of the remaining computation of AuthButton lines 98-100 and
UsageAlert lines 146-148: Math.max(0, limit - usage) with the plan
falling back to the string free when the profile field is falsy; a
plan name missing from PLAN_LIMITS makes the JS arithmetic produce
NaN, modelled as none. -/
def authRemaining (plan : String) (usage : Nat) : Option Int :=
  (planLimits (if plan = "" then "free" else plan)).map
    (fun l => max 0 ((l : Int) - (usage : Int)))

/-! ## The unsynchronised read-check-write race

analyze.ts reads usage_count with a SELECT (line 206, into
currentUsage at line 217), checks it against the limit (line 234), and
later writes usage_count = currentUsage + 1 with a plain UPDATE (lines
308-311); the three steps are separate round trips with no
transaction, so two requests for the same account can interleave
between the read and the write. -/

/-- The SELECT of the usage counter. -/
def readUsage (db : Nat) : Nat := db

/-- The UPDATE of the usage counter: it stores currentUsage + 1
computed from the value read earlier, ignoring the value the row holds
at write time. -/
def writeUsage (localUsage : Nat) (_db : Nat) : Nat := localUsage + 1

/-- Two requests A and B for the same account under the interleaving
read A, read B, check-and-write A, check-and-write B.  Returns whether
each request passed the limit check (and hence proceeded to a
success response) and the final persisted counter. -/
def raceBothRead (db : Nat) (limit : Nat) : Bool × Bool × Nat :=
  let uA := readUsage db
  let uB := readUsage db
  let okA := decide (uA < limit)
  let db1 := if okA then writeUsage uA db else db
  let okB := decide (uB < limit)
  let db2 := if okB then writeUsage uB db1 else db1
  (okA, okB, db2)

/-! ## Lemmas about the lookahead split -/

theorem splitGo_ne_nil (l : List Char) : ∀ acc, splitGo l acc ≠ [] := by
  induction l with
  | nil => intro acc; simp [splitGo]
  | cons c rest ih =>
    intro acc
    by_cases h : isBoundary (c :: rest) = true
    · simp [splitGo, h]
    · simp only [splitGo, h, if_false, Bool.not_eq_true] at *
      simpa using ih (c :: acc)

theorem splitGo_flatten (l : List Char) :
    ∀ acc, (splitGo l acc).flatten = acc.reverse ++ l := by
  induction l with
  | nil => intro acc; simp [splitGo]
  | cons c rest ih =>
    intro acc
    by_cases h : isBoundary (c :: rest) = true
    · simp [splitGo, h, ih]
    · simp [splitGo, h, ih]

/-- The split discards no content: the chunks concatenate back to the
document. -/
theorem splitChunks_flatten (doc : List Char) :
    (splitChunks doc).flatten = doc := by
  cases doc with
  | nil => simp [splitChunks]
  | cons c rest => simpa using splitGo_flatten rest [c]

theorem offsetsAux_head_mem (cs : List (List Char)) (o : Nat) (h : cs ≠ []) :
    o ∈ offsetsAux cs o := by
  cases cs with
  | nil => exact absurd rfl h
  | cons c cs => simp [offsetsAux]

/-- Completeness of the cut positions: every interior boundary
position of the text being scanned shows up as a chunk start. -/
theorem splitGo_offsets_complete (l : List Char) :
    ∀ acc o j, j < l.length → isBoundary (l.drop j) = true →
      o + acc.length + j ∈ offsetsAux (splitGo l acc) o := by
  induction l with
  | nil => intro acc o j hj _; simp at hj
  | cons c rest ih =>
    intro acc o j hj hb
    by_cases h : isBoundary (c :: rest) = true
    · rw [splitGo, if_pos h]
      rw [offsetsAux]
      cases j with
      | zero =>
        refine List.mem_cons_of_mem _ ?_
        have := offsetsAux_head_mem (splitGo rest [c])
          (o + acc.reverse.length) (splitGo_ne_nil rest [c])
        simpa using this
      | succ k =>
        refine List.mem_cons_of_mem _ ?_
        have hk : k < rest.length := by
          simp only [List.length_cons] at hj; omega
        have hbk : isBoundary (rest.drop k) = true := by
          rw [List.drop_succ_cons] at hb; exact hb
        have hmem := ih [c] (o + acc.reverse.length) k hk hbk
        have harith : o + acc.length + (k + 1)
            = o + acc.reverse.length + ([c] : List Char).length + k := by
          simp only [List.length_reverse, List.length_cons, List.length_nil]
          omega
        rw [harith]
        exact hmem
    · rw [splitGo, if_neg h]
      cases j with
      | zero => simp at hb; exact absurd hb h
      | succ k =>
        have hk : k < rest.length := by
          simp only [List.length_cons] at hj; omega
        have hbk : isBoundary (rest.drop k) = true := by
          rw [List.drop_succ_cons] at hb; exact hb
        have hmem := ih (c :: acc) o k hk hbk
        have harith : o + acc.length + (k + 1) = o + (c :: acc).length + k := by
          simp only [List.length_cons]
          omega
        rw [harith]
        exact hmem

/-- Soundness of the cut positions: every chunk start is either the
start of the scan or an interior boundary position. -/
theorem splitGo_offsets_sound (l : List Char) :
    ∀ acc o i, i ∈ offsetsAux (splitGo l acc) o →
      i = o ∨ ∃ j, j < l.length ∧ isBoundary (l.drop j) = true ∧
        i = o + acc.length + j := by
  induction l with
  | nil =>
    intro acc o i hi
    simp [splitGo, offsetsAux] at hi
    exact Or.inl hi
  | cons c rest ih =>
    intro acc o i hi
    by_cases h : isBoundary (c :: rest) = true
    · rw [splitGo, if_pos h, offsetsAux] at hi
      rcases List.mem_cons.mp hi with hi | hi
      · exact Or.inl hi
      · rcases ih [c] (o + acc.reverse.length) i hi with hi | ⟨j, hj, hbj, hij⟩
        · refine Or.inr ⟨0, by simp, by simpa using h, ?_⟩
          simpa [List.length_reverse] using hi
        · have hj1 : j + 1 < (c :: rest).length := by
            simp only [List.length_cons]; omega
          have hb1 : isBoundary ((c :: rest).drop (j + 1)) = true := by
            rw [List.drop_succ_cons]; exact hbj
          refine Or.inr ⟨j + 1, hj1, hb1, ?_⟩
          simp only [List.length_reverse, List.length_cons, List.length_nil] at hij ⊢
          omega
    · rw [splitGo, if_neg h] at hi
      rcases ih (c :: acc) o i hi with hi | ⟨j, hj, hbj, hij⟩
      · exact Or.inl hi
      · have hj1 : j + 1 < (c :: rest).length := by
          simp only [List.length_cons]; omega
        have hb1 : isBoundary ((c :: rest).drop (j + 1)) = true := by
          rw [List.drop_succ_cons]; exact hbj
        refine Or.inr ⟨j + 1, hj1, hb1, ?_⟩
        simp only [List.length_cons] at hij ⊢
        omega

/-- The split cuts exactly at the boundary positions: for interior
offsets, membership in the chunk-start list coincides with the
lookahead pattern matching at that offset. -/
theorem splitChunks_offsets_iff (doc : List Char) (i : Nat) (hi : 0 < i) :
    i ∈ offsetsAux (splitChunks doc) 0 ↔
      (i < doc.length ∧ isBoundary (doc.drop i) = true) := by
  cases doc with
  | nil =>
    simp only [splitChunks, offsetsAux]
    constructor
    · intro h; simp at h; omega
    · intro h; simp at h
  | cons c rest =>
    constructor
    · intro h
      rcases splitGo_offsets_sound rest [c] 0 i h with h | ⟨j, hj, hbj, hij⟩
      · omega
      · simp only [List.length_cons, List.length_nil] at hij
        have hi1 : i = j + 1 := by omega
        subst hi1
        refine ⟨by simp only [List.length_cons]; omega, ?_⟩
        rw [List.drop_succ_cons]
        exact hbj
    · rintro ⟨hlen, hb⟩
      obtain ⟨k, rfl⟩ : ∃ k, i = k + 1 := ⟨i - 1, by omega⟩
      have hk : k < rest.length := by
        simp only [List.length_cons] at hlen; omega
      have hbk : isBoundary (rest.drop k) = true := by
        rw [List.drop_succ_cons] at hb; exact hb
      have hmem := splitGo_offsets_complete rest [c] 0 k hk hbk
      show k + 1 ∈ offsetsAux (splitGo rest [c]) 0
      have harith : k + 1 = 0 + ([c] : List Char).length + k := by
        simp only [List.length_cons, List.length_nil]
        omega
      rw [harith]
      exact hmem

/-- When the boundary pattern matches nowhere in the document, the
split returns it whole. -/
theorem splitGo_no_cut (l : List Char) :
    ∀ acc, (∀ j, isBoundary (l.drop j) = false) →
      splitGo l acc = [acc.reverse ++ l] := by
  induction l with
  | nil => intro acc _; simp [splitGo]
  | cons c rest ih =>
    intro acc h
    have h0 : isBoundary (c :: rest) = false := by simpa using h 0
    rw [splitGo, if_neg (by simp [h0])]
    have := ih (c :: acc) (fun j => by simpa using h (j + 1))
    simpa using this

theorem splitChunks_no_cut (doc : List Char)
    (h : ∀ j, 0 < j → isBoundary (doc.drop j) = false) :
    splitChunks doc = [doc] := by
  cases doc with
  | nil => rfl
  | cons c rest =>
    have := splitGo_no_cut rest [c]
      (fun j => by simpa using h (j + 1) (Nat.succ_pos j))
    simpa [splitChunks] using this

/-! ## Lemmas about trimming -/

theorem dropLeading_nil : dropLeading [] = [] := rfl

theorem dropLeading_cons (x : Char) (t : List Char) :
    dropLeading (x :: t) = if wsChar x then dropLeading t else x :: t := by
  simp [dropLeading, List.dropWhile_cons]

theorem dropLeading_idem (l : List Char) :
    dropLeading (dropLeading l) = dropLeading l := by
  induction l with
  | nil => rfl
  | cons x t ih =>
    by_cases h : wsChar x
    · rw [dropLeading_cons, if_pos h, ih]
    · rw [dropLeading_cons, if_neg h, dropLeading_cons, if_neg h]

theorem dropLeading_eq_nil (l : List Char) (h : ∀ x ∈ l, wsChar x = true) :
    dropLeading l = [] := by
  induction l with
  | nil => rfl
  | cons x t ih =>
    rw [dropLeading_cons, if_pos (h x (by simp))]
    exact ih (fun y hy => h y (by simp [hy]))

theorem dropTrailing_eq_nil (l : List Char) (h : ∀ x ∈ l, wsChar x = true) :
    dropTrailing l = [] := by
  induction l with
  | nil => rfl
  | cons x t ih =>
    have ht := ih (fun y hy => h y (by simp [hy]))
    simp [dropTrailing, ht, h x (by simp)]

theorem dropTrailing_idem (l : List Char) :
    dropTrailing (dropTrailing l) = dropTrailing l := by
  induction l with
  | nil => rfl
  | cons x t ih =>
    rw [dropTrailing]
    by_cases ht : (dropTrailing t).isEmpty
    · rw [if_pos ht]
      by_cases hx : wsChar x
      · simp [hx, dropTrailing]
      · simp [dropTrailing, hx]
    · rw [if_neg ht]
      rw [dropTrailing]
      simp only [ih]
      rw [if_neg ht]

theorem dropTrailing_ne_nil_cons (x : Char) (t : List Char)
    (hx : wsChar x = false) : dropTrailing (x :: t) ≠ [] := by
  rw [dropTrailing]
  by_cases ht : (dropTrailing t).isEmpty
  · simp [ht, hx]
  · simp [ht]

theorem dropTrailing_append (a b : List Char) (hb : dropTrailing b ≠ []) :
    dropTrailing (a ++ b) = a ++ dropTrailing b := by
  induction a with
  | nil => simp
  | cons x a ih =>
    have hne : dropTrailing (a ++ b) ≠ [] := by
      rw [ih]; simp [hb]
    rw [List.cons_append, dropTrailing]
    simp only [List.isEmpty_iff]
    rw [if_neg hne, ih, List.cons_append]

/-- Removing trailing whitespace does nothing when the last character
is not whitespace. -/
theorem dropTrailing_of_last (l : List Char) (x : Char)
    (h : l.getLast? = some x) (hx : wsChar x = false) :
    dropTrailing l = l := by
  induction l with
  | nil => simp at h
  | cons y t ih =>
    cases t with
    | nil =>
      simp only [List.getLast?_singleton, Option.some_inj] at h
      subst h
      simp [dropTrailing, hx]
    | cons z t' =>
      have hlt : (z :: t').getLast? = some x := by
        rw [← h]; simp [List.getLast?_cons_cons]
      have ht := ih hlt
      have hne : dropTrailing (z :: t') ≠ [] := by simp [ht]
      rw [dropTrailing]
      simp only [List.isEmpty_iff]
      rw [if_neg hne, ht]

theorem trimList_idem (l : List Char) :
    trimList (trimList l) = trimList l := by
  unfold trimList
  have h1 : dropLeading (dropTrailing (dropLeading l))
      = dropTrailing (dropLeading l) := by
    cases hm : dropLeading l with
    | nil => simp [hm, dropTrailing, dropLeading]
    | cons x t =>
      have hx : wsChar x = false := by
        have := dropLeading_idem l
        rw [hm, dropLeading_cons] at this
        by_cases hxx : wsChar x
        · rw [if_pos hxx] at this
          have hlen := congrArg List.length this
          have hle : (dropLeading t).length ≤ t.length := by
            simpa [dropLeading] using (List.dropWhile_sublist wsChar (l := t)).length_le
          simp only [List.length_cons] at hlen
          omega
        · simpa using hxx
      rw [dropTrailing]
      by_cases ht : (dropTrailing t).isEmpty
      · simp only [List.isEmpty_iff] at ht
        simp [ht]
        by_cases hxx : wsChar x
        · simp [hx] at hxx
        · simp [hxx, dropLeading_cons]
      · simp only [List.isEmpty_iff] at ht
        simp [ht, dropLeading_cons, hx]
  rw [h1, dropTrailing_idem]

theorem trimList_eq_nil (l : List Char) (h : ∀ x ∈ l, wsChar x = true) :
    trimList l = [] := by
  unfold trimList
  rw [dropLeading_eq_nil l h]
  rfl

theorem isBoundary_nil : isBoundary [] = false := rfl

/-- Bounded check of the boundary pattern over all offsets of a
document suffices: past the end the suffix is empty and never
matches. -/
theorem isBoundary_drop_of_all (doc : List Char)
    (h : ∀ i < doc.length, isBoundary (doc.drop i) = false) :
    ∀ i, isBoundary (doc.drop i) = false := by
  intro i
  rcases Nat.lt_or_ge i doc.length with hi | hi
  · exact h i hi
  · rw [List.drop_eq_nil_of_le hi]
    rfl

/-! ## Shape of the chunks after the first -/

theorem wsChar_eq_false_of_isDigit (d : Char) (h : d.isDigit = true) :
    wsChar d = false := by
  by_contra hc
  rw [Bool.not_eq_false] at hc
  unfold wsChar at hc
  simp only [Bool.or_eq_true, beq_iff_eq] at hc
  rcases hc with ((((h1 | h1) | h1) | h1) | h1) | h1 <;> subst h1 <;>
    revert h <;> decide

theorem headingAfter_shape (r : List Char) (h : headingAfter r = true) :
    ∃ t, r = '#' :: t := by
  unfold headingAfter at h
  split at h
  · exact ⟨_, rfl⟩
  · exact ⟨_, rfl⟩
  · exact ⟨_, rfl⟩
  · exact absurd h (by simp)

theorem numberAfter_shape (r : List Char) (h : numberAfter r = true) :
    ∃ d t, r = d :: t ∧ d.isDigit = true := by
  unfold numberAfter at h
  split at h
  · exact absurd h (by simp)
  · rename_i d t
    exact ⟨d, t, rfl, (Bool.and_eq_true _ _ |>.mp h).1⟩

/-- Every boundary suffix starts with a newline followed by a
non-whitespace character (a hash mark or a digit). -/
theorem isBoundary_shape (c : List Char) (h : isBoundary c = true) :
    ∃ x t, c = '\n' :: x :: t ∧ wsChar x = false := by
  unfold isBoundary at h
  split at h
  · rename_i rest
    rcases Bool.or_eq_true _ _ |>.mp h with hh | hn
    · rcases headingAfter_shape rest hh with ⟨t, rfl⟩
      exact ⟨'#', t, rfl, by decide⟩
    · rcases numberAfter_shape rest hn with ⟨d, t, rfl, hd⟩
      exact ⟨d, t, rfl, wsChar_eq_false_of_isDigit d hd⟩
  · exact absurd h (by simp)

theorem isBoundary_cons_ne (a : Char) (r : List Char) (ha : a ≠ '\n') :
    isBoundary (a :: r) = false := by
  unfold isBoundary
  split
  · rename_i heq
    injection heq with h1 _
    exact absurd h1 ha
  · rfl

/-- The head chunk of the scan extends the accumulated chunk. -/
theorem splitGo_head_shape (l : List Char) :
    ∀ acc, ∃ u, (splitGo l acc).head? = some (acc.reverse ++ u) := by
  induction l with
  | nil => intro acc; exact ⟨[], by simp [splitGo]⟩
  | cons c rest ih =>
    intro acc
    by_cases h : isBoundary (c :: rest) = true
    · exact ⟨[], by simp [splitGo, h]⟩
    · rcases ih (c :: acc) with ⟨u, hu⟩
      refine ⟨c :: u, ?_⟩
      rw [splitGo, if_neg h, hu]
      simp

/-- Every chunk after the first starts with the boundary newline
followed by a non-whitespace character. -/
theorem splitGo_tail_shape (l : List Char) :
    ∀ acc, ∀ c ∈ (splitGo l acc).tail,
      ∃ x t, c = '\n' :: x :: t ∧ wsChar x = false := by
  induction l with
  | nil => intro acc c hc; simp [splitGo] at hc
  | cons c rest ih =>
    intro acc e he
    by_cases h : isBoundary (c :: rest) = true
    · rw [splitGo, if_pos h] at he
      simp only [List.tail_cons] at he
      rcases isBoundary_shape (c :: rest) h with ⟨x, t, heq, hx⟩
      injection heq with h1 h2
      subst h1
      subst h2
      have hxn : x ≠ '\n' := by
        intro hxe
        subst hxe
        simp [wsChar] at hx
      have hstep : splitGo (x :: t) ['\n'] = splitGo t [x, '\n'] := by
        rw [splitGo, if_neg (by simp [isBoundary_cons_ne x t hxn])]
      rw [hstep] at he
      cases hsg : splitGo t [x, '\n'] with
      | nil => exact absurd hsg (splitGo_ne_nil t [x, '\n'])
      | cons h₀ r₀ =>
        rw [hsg] at he
        rcases List.mem_cons.mp he with rfl | he
        · rcases splitGo_head_shape t [x, '\n'] with ⟨u, hu⟩
          rw [hsg] at hu
          simp only [List.head?_cons, Option.some_inj] at hu
          exact ⟨x, u, by simpa using hu, hx⟩
        · have hmem : e ∈ (splitGo (x :: t) ['\n']).tail := by
            rw [hstep, hsg]
            simpa using he
          exact ih ['\n'] e hmem
    · rw [splitGo, if_neg h] at he
      exact ih (c :: acc) e he

theorem splitChunks_ne_nil (doc : List Char) : splitChunks doc ≠ [] := by
  cases doc with
  | nil => simp [splitChunks]
  | cons c rest => exact splitGo_ne_nil rest [c]

theorem splitChunks_tail_shape (doc : List Char) :
    ∀ c ∈ (splitChunks doc).tail,
      ∃ x t, c = '\n' :: x :: t ∧ wsChar x = false := by
  cases doc with
  | nil => intro c hc; simp [splitChunks] at hc
  | cons a rest => exact splitGo_tail_shape rest [a]

/-! ## Trimming across chunk boundaries -/

/-- Boolean test that a chunk ends in a non-whitespace character. -/
def endsNonWs (c : List Char) : Bool :=
  match c.getLast? with
  | some y => !wsChar y
  | none => false

theorem endsNonWs_iff (c : List Char) :
    endsNonWs c = true ↔ ∃ y, c.getLast? = some y ∧ wsChar y = false := by
  unfold endsNonWs
  cases h : c.getLast? with
  | none => simp
  | some y => simp [h]

theorem dropLeading_append (a b : List Char) (ha : dropLeading a ≠ []) :
    dropLeading (a ++ b) = dropLeading a ++ b := by
  induction a with
  | nil => exact absurd rfl ha
  | cons x a ih =>
    by_cases hx : wsChar x
    · rw [dropLeading_cons, if_pos hx] at ha
      rw [List.cons_append, dropLeading_cons, if_pos hx, ih ha,
        dropLeading_cons, if_pos hx]
    · rw [List.cons_append, dropLeading_cons, if_neg hx,
        dropLeading_cons, if_neg hx, List.cons_append]

theorem getLast?_dropLeading (l : List Char) (h : dropLeading l ≠ []) :
    (dropLeading l).getLast? = l.getLast? := by
  induction l with
  | nil => exact absurd rfl h
  | cons x t ih =>
    by_cases hx : wsChar x
    · rw [dropLeading_cons, if_pos hx] at h ⊢
      have ht : t ≠ [] := by
        intro he
        subst he
        exact h rfl
      rw [ih h]
      rw [show x :: t = [x] ++ t by simp,
        List.getLast?_append_of_ne_nil [x] ht]
    · rw [dropLeading_cons, if_neg hx]

theorem dropLeading_ne_nil_of_endsNonWs (a : List Char)
    (ha : endsNonWs a = true) : dropLeading a ≠ [] := by
  rcases (endsNonWs_iff a).mp ha with ⟨y, hy, hwy⟩
  have hymem : y ∈ a := List.mem_of_getLast?_eq_some hy
  intro h
  unfold dropLeading at h
  rw [List.dropWhile_eq_nil_iff] at h
  rw [h y hymem] at hwy
  simp at hwy

/-- A list ending in a non-whitespace character trims from the right
to itself, so trimming it from both sides only removes its leading
whitespace. -/
theorem trimList_of_endsNonWs (a : List Char) (ha : endsNonWs a = true) :
    trimList a = dropLeading a := by
  rcases (endsNonWs_iff a).mp ha with ⟨y, hy, hwy⟩
  have hne : dropLeading a ≠ [] := dropLeading_ne_nil_of_endsNonWs a ha
  unfold trimList
  refine dropTrailing_of_last (dropLeading a) y ?_ hwy
  rw [getLast?_dropLeading a hne, hy]

theorem dropTrailing_newline_chunk (x : Char) (t : List Char)
    (hx : wsChar x = false) :
    dropTrailing ('\n' :: x :: t) = '\n' :: dropTrailing (x :: t) := by
  rw [dropTrailing]
  simp only [List.isEmpty_iff]
  rw [if_neg (dropTrailing_ne_nil_cons x t hx)]

theorem trimList_newline_chunk (x : Char) (t : List Char)
    (hx : wsChar x = false) :
    trimList ('\n' :: x :: t) = dropTrailing (x :: t) := by
  unfold trimList
  rw [dropLeading_cons, if_pos (by decide), dropLeading_cons,
    if_neg (by simp [hx])]

/-- Appending one boundary chunk to text with no trailing whitespace
commutes with trimming. -/
theorem trim_append_chunk (a c : List Char)
    (hal : dropLeading a ≠ []) (hae : endsNonWs a = true)
    (hc : ∃ x t, c = '\n' :: x :: t ∧ wsChar x = false) :
    trimList (a ++ c) = trimList a ++ dropTrailing c := by
  rcases hc with ⟨x, t, rfl, hx⟩
  have hdc : dropTrailing ('\n' :: x :: t) ≠ [] := by
    rw [dropTrailing_newline_chunk x t hx]
    simp
  have hta := trimList_of_endsNonWs a hae
  unfold trimList at hta ⊢
  rw [dropLeading_append a _ hal, dropTrailing_append _ _ hdc, hta]

/-- Core of the round-trip argument: trimming distributes over the
chunk decomposition when every chunk before the last ends in
non-whitespace, the later chunks losing exactly their trailing
whitespace. -/
theorem trim_flatten_rec (cs : List (List Char)) :
    ∀ a : List Char,
      (∀ c ∈ cs, ∃ x t, c = '\n' :: x :: t ∧ wsChar x = false) →
      (∀ c ∈ cs.dropLast, endsNonWs c = true) →
      dropLeading a ≠ [] →
      (cs ≠ [] → endsNonWs a = true) →
      trimList (a ++ cs.flatten)
        = trimList a ++ (cs.map dropTrailing).flatten := by
  induction cs with
  | nil => intro a _ _ _ _; simp
  | cons c cs ih =>
    intro a hshape hmid hal hae
    have hc := hshape c (by simp)
    by_cases hcs : cs = []
    · subst hcs
      simp only [List.flatten_cons, List.flatten_nil, List.append_nil,
        List.map_cons, List.map_nil]
      exact trim_append_chunk a c hal (hae (by simp)) hc
    · rcases List.exists_cons_of_ne_nil hcs with ⟨c₁, cs₁, rfl⟩
      have hcmid : endsNonWs c = true := by
        apply hmid
        rw [List.dropLast_cons₂]
        simp
      have h1 : trimList (a ++ c) = trimList a ++ dropTrailing c :=
        trim_append_chunk a c hal (hae (by simp)) hc
      have hdtc : dropTrailing c = c := by
        rcases (endsNonWs_iff c).mp hcmid with ⟨y, hy, hwy⟩
        exact dropTrailing_of_last c y hy hwy
      have hcne : c ≠ [] := by
        rcases hc with ⟨x, t, rfl, _⟩
        simp
      have hal2 : dropLeading (a ++ c) ≠ [] := by
        rw [dropLeading_append a c hal]
        intro hnil
        exact hcne (List.append_eq_nil.mp hnil).2
      have hae2 : endsNonWs (a ++ c) = true := by
        rw [endsNonWs_iff]
        rcases (endsNonWs_iff c).mp hcmid with ⟨y, hy, hwy⟩
        exact ⟨y, by rw [List.getLast?_append_of_ne_nil a hcne, hy], hwy⟩
      have hrec := ih (a ++ c)
        (fun d hd => hshape d (by simp [hd]))
        (fun d hd => hmid d (by rw [List.dropLast_cons₂]; simp [hd]))
        hal2 (fun _ => hae2)
      calc trimList (a ++ (c :: c₁ :: cs₁).flatten)
          = trimList ((a ++ c) ++ (c₁ :: cs₁).flatten) := by
            rw [List.flatten_cons, List.append_assoc]
        _ = trimList (a ++ c) ++ ((c₁ :: cs₁).map dropTrailing).flatten :=
            hrec
        _ = (trimList a ++ dropTrailing c)
              ++ ((c₁ :: cs₁).map dropTrailing).flatten := by rw [h1]
        _ = trimList a ++ ((c :: c₁ :: cs₁).map dropTrailing).flatten := by
            simp [List.append_assoc]

/-! ## Claim C9 -/

/-- C9 counterexample: on the document "A \n# B" the space before the
boundary newline is trimmed away from the first chunk, so neither the
concatenation of the sections nor the concatenation with the boundary
newline reinserted reconstructs the trimmed original document. -/
theorem C9_counterexample :
    splitChunks ("A \n# B".data) = ["A ".data, "\n# B".data] ∧
    sections ("A \n# B".data) = ["A".data, "# B".data] ∧
    trimList ("A \n# B".data) = "A \n# B".data ∧
    reconstruct ("A \n# B".data) ≠ trimList ("A \n# B".data) ∧
    (sections ("A \n# B".data)).flatten ≠ trimList ("A \n# B".data) := by
  decide

/-- C9 amended: for documents in which no chunk before the last ends
in whitespace (no whitespace immediately precedes a boundary newline
and the leading chunk has no trailing whitespace), concatenating the
sections in order with the boundary newline reinserted before each
section after the first reconstructs the trimmed original document. -/
theorem C9_roundtrip_amended (doc : List Char)
    (h : ∀ c ∈ (splitChunks doc).dropLast, endsNonWs c = true) :
    reconstruct doc = trimList doc := by
  cases hch : splitChunks doc with
  | nil => exact absurd hch (splitChunks_ne_nil doc)
  | cons c₀ cs =>
    have hdoc : c₀ ++ cs.flatten = doc := by
      have hfl := splitChunks_flatten doc
      rw [hch] at hfl
      simpa using hfl
    have hshape : ∀ c ∈ cs, ∃ x t, c = '\n' :: x :: t ∧ wsChar x = false := by
      intro c hc
      apply splitChunks_tail_shape doc
      rw [hch]
      simpa using hc
    by_cases hcs : cs = []
    · subst hcs
      have hd : c₀ = doc := by simpa using hdoc
      subst hd
      unfold reconstruct sections
      rw [hch]
      simp only [List.map_cons, List.map_nil]
      by_cases hne : trimList c₀ = []
      · rw [hne]
        simp
      · rw [List.filter_cons_of_pos (by simp [hne]), List.filter_nil]
        simp
    · rcases List.exists_cons_of_ne_nil hcs with ⟨c₁, cs₁, rfl⟩
      have hc₀e : endsNonWs c₀ = true := by
        apply h
        rw [hch, List.dropLast_cons₂]
        simp
      have hmid : ∀ c ∈ (c₁ :: cs₁).dropLast, endsNonWs c = true := by
        intro c hcm
        apply h
        rw [hch, List.dropLast_cons₂]
        simp [hcm]
      have hc₀t : trimList c₀ = dropLeading c₀ := trimList_of_endsNonWs c₀ hc₀e
      have hc₀ne : trimList c₀ ≠ [] := by
        rw [hc₀t]
        exact dropLeading_ne_nil_of_endsNonWs c₀ hc₀e
      have htne : ∀ c ∈ c₁ :: cs₁, trimList c ≠ [] := by
        intro c hc
        rcases hshape c hc with ⟨x, t, rfl, hx⟩
        rw [trimList_newline_chunk x t hx]
        exact dropTrailing_ne_nil_cons x t hx
      have hsections : sections doc
          = trimList c₀ :: (c₁ :: cs₁).map trimList := by
        unfold sections
        rw [hch, List.map_cons]
        apply List.filter_eq_self.mpr
        intro s hs
        rcases List.mem_cons.mp hs with rfl | hs
        · simp [hc₀ne]
        · rcases List.mem_map.mp hs with ⟨c, hc, rfl⟩
          simp [htne c hc]
      have hper : ∀ c ∈ c₁ :: cs₁, '\n' :: trimList c = dropTrailing c := by
        intro c hc
        rcases hshape c hc with ⟨x, t, rfl, hx⟩
        rw [trimList_newline_chunk x t hx, dropTrailing_newline_chunk x t hx]
      have hmain := trim_flatten_rec (c₁ :: cs₁) c₀ hshape hmid
        (dropLeading_ne_nil_of_endsNonWs c₀ hc₀e) (fun _ => hc₀e)
      have hrecon : reconstruct doc
          = trimList c₀
            ++ (((c₁ :: cs₁).map trimList).map (fun t => '\n' :: t)).flatten := by
        unfold reconstruct
        rw [hsections]
      rw [hrecon, ← hdoc, hmain, List.map_map]
      congr 1
      congr 1
      refine List.map_congr_left ?_
      intro c hc
      simpa [Function.comp] using hper c hc

/-- Witness instantiating the amended C9 at a concrete document whose
chunks carry no trailing whitespace. -/
theorem C9_roundtrip_amended_witness :
    reconstruct ("Intro\n# One\nBody".data)
      = trimList ("Intro\n# One\nBody".data) :=
  C9_roundtrip_amended ("Intro\n# One\nBody".data) (by decide)

/-! ## Claim C7 -/

/-- C7: a section is classified as the prompt section exactly when its
lowercased title contains the substring "prompt"; for a prompt section
whose body yields a fenced code block the copy action returns the
trimmed capture, and for every other section, including a prompt
section without a fenced block, it returns the full chunk text. -/
theorem C7_prompt_copy :
    (∀ s : List Char, isPromptSection s
        = containsSub ("prompt".data) (lowerList (titleOf s))) ∧
    (∀ s code : List Char, isPromptSection s = true →
      extractCode (bodyOf s) = some code → copyText s = trimList code) ∧
    (∀ s : List Char, isPromptSection s = false → copyText s = s) ∧
    (∀ s : List Char, extractCode (bodyOf s) = none → copyText s = s) := by
  refine ⟨fun s => rfl, ?_, ?_, ?_⟩
  · intro s code hp he
    unfold copyText
    rw [if_pos hp, he]
  · intro s hp
    unfold copyText
    rw [if_neg (by simp [hp])]
  · intro s he
    unfold copyText
    by_cases hp : isPromptSection s = true
    · rw [if_pos hp, he]
    · rw [if_neg (by simpa using hp)]

/-- Witness instantiating C7 on the concrete prompt section of the
specification: the copy action yields exactly the inner text of the
markdown-tagged fence. -/
theorem C7_prompt_copy_witness :
    copyText ("5. THE REPLICATION PROMPT\n```markdown\nBuild X\n```".data)
      = "Build X".data := by
  have h := C7_prompt_copy.2.1
    ("5. THE REPLICATION PROMPT\n```markdown\nBuild X\n```".data)
    ("\nBuild X\n".data) (by decide) (by decide)
  rw [h]
  decide

/-! ## Claim C6 -/

/-- C6: the segmenter splits a document exactly at every newline
immediately followed by one to three heading markers and a space, or a
newline followed by a decimal number, a period and a space, as a
lookahead split: the chunks concatenate back to the document (nothing
is discarded) and the interior chunk-start offsets are exactly the
boundary-match offsets; the sections are the trimmed chunks with
empty chunks discarded, in order; and the literal document
"1. VISUAL SPECS\nColors: red" yields exactly one section, with title
"VISUAL SPECS" and a body containing "Colors: red". -/
theorem C6_lookahead_split :
    (∀ doc : List Char, (splitChunks doc).flatten = doc) ∧
    (∀ (doc : List Char) (i : Nat), 0 < i →
      (i ∈ offsetsAux (splitChunks doc) 0 ↔
        (i < doc.length ∧ isBoundary (doc.drop i) = true))) ∧
    (∀ doc : List Char,
      sections doc
        = ((splitChunks doc).map trimList).filter (fun s => !s.isEmpty)) ∧
    sections ("1. VISUAL SPECS\nColors: red".data)
      = ["1. VISUAL SPECS\nColors: red".data] ∧
    titleOf ("1. VISUAL SPECS\nColors: red".data) = "VISUAL SPECS".data ∧
    containsSub ("Colors: red".data)
      (bodyOf ("1. VISUAL SPECS\nColors: red".data)) = true :=
  ⟨splitChunks_flatten, splitChunks_offsets_iff, fun _ => rfl,
    by decide, by decide, by decide⟩

/-- Witness instantiating C6 at a concrete document and offset: in
"Intro\n# One" the offset of the newline is a split point. -/
theorem C6_lookahead_split_witness :
    5 ∈ offsetsAux (splitChunks ("Intro\n# One".data)) 0 :=
  (C6_lookahead_split.2.1 ("Intro\n# One".data) 5 (by decide)).mpr (by decide)

/-! ## Claim C8 -/

/-- C8 counterexample: the claim fails as stated on two documents.
The empty document has no boundary match yet yields zero sections, not
one; and "2. HELLO\nWorld" has no boundary match (the only newline is
followed by a letter) yet its single section is titled "HELLO", not
the fallback label. -/
theorem C8_counterexample :
    (List.range ("2. HELLO\nWorld".data).length).all
        (fun i => !isBoundary (("2. HELLO\nWorld".data).drop i)) = true ∧
    sections ("2. HELLO\nWorld".data) = ["2. HELLO\nWorld".data] ∧
    titleOf ("2. HELLO\nWorld".data) = "HELLO".data ∧
    "HELLO".data ≠ "Analysis Overview".data ∧
    (List.range ("".data).length).all
        (fun i => !isBoundary (("".data).drop i)) = true ∧
    sections ("".data) = [] := by
  decide

/-- C8 amended: a document in which the boundary pattern matches
nowhere and that is nonempty after trimming segments into exactly one
section, the trimmed document; its title is the fallback label
"Analysis Overview" provided the trimmed document does not itself
begin with a heading-marker or numbered-item prefix. -/
theorem C8_single_section_amended (doc : List Char)
    (hnb : ∀ i, 0 < i → isBoundary (doc.drop i) = false)
    (hne : trimList doc ≠ []) :
    sections doc = [trimList doc] ∧
    (markSplit (trimList doc) = none →
      titleOf (trimList doc) = "Analysis Overview".data) := by
  constructor
  · unfold sections
    rw [splitChunks_no_cut doc hnb]
    simp [hne]
  · intro h
    unfold titleOf
    rw [h]

/-- Witness instantiating the amended C8 on a concrete boundary-free
document. -/
theorem C8_single_section_amended_witness :
    sections ("hello world".data) = [trimList ("hello world".data)] ∧
    titleOf (trimList ("hello world".data)) = "Analysis Overview".data := by
  have h := C8_single_section_amended ("hello world".data)
    (fun i _ => isBoundary_drop_of_all ("hello world".data) (by decide) i)
    (by decide)
  exact ⟨h.1, h.2 (by decide)⟩

/-! ## Claim C10 -/

/-- C10: every section the segmenter produces is nonempty and still
nonempty after trimming, and a document consisting only of whitespace
(or empty) yields no sections at all. -/
theorem C10_sections_nonempty :
    (∀ (doc s : List Char), s ∈ sections doc → s ≠ [] ∧ trimList s = s) ∧
    (∀ doc : List Char, (∀ x ∈ doc, wsChar x = true) → sections doc = []) := by
  constructor
  · intro doc s hs
    unfold sections at hs
    have hmem := List.mem_of_mem_filter hs
    have hpred := List.of_mem_filter hs
    rcases List.mem_map.mp hmem with ⟨c, _, rfl⟩
    refine ⟨?_, trimList_idem c⟩
    intro hnil
    rw [hnil] at hpred
    simp at hpred
  · intro doc hws
    unfold sections
    rw [List.filter_eq_nil_iff]
    intro s hs
    rcases List.mem_map.mp hs with ⟨c, hc, rfl⟩
    have hcws : ∀ x ∈ c, wsChar x = true := by
      intro x hx
      refine hws x ?_
      rw [← splitChunks_flatten doc]
      exact List.mem_flatten.mpr ⟨c, hc, hx⟩
    rw [trimList_eq_nil c hcws]
    simp

/-- Witness instantiating C10: a whitespace-only document yields no
sections, and a concrete produced section is nonempty. -/
theorem C10_sections_nonempty_witness :
    sections (" \n\t  ".data) = [] ∧ ("hi".data ≠ ([] : List Char)) :=
  ⟨C10_sections_nonempty.2 (" \n\t  ".data) (by decide),
    (C10_sections_nonempty.1 ("hi".data) ("hi".data) (by decide)).1⟩

/-! ## Lemmas about dates and consumption -/

theorem dateLt_eq_not_dateLe (a b : LocalDate) : dateLt a b = !dateLe b a := by
  unfold dateLt dateLe
  split_ifs <;> simp_all [decide_eq_decide, ← decide_not] <;> omega

/-- One consume attempt inside the current period with quota left:
the counter increments by exactly one and the reset boundary is
untouched. -/
theorem tryConsume_in_period_lt (plan : String) (n : Nat) (r now : LocalDate)
    (h : dateLe r now = false) (hn : n < allowance plan) :
    tryConsume ⟨plan, n, r⟩ now
      = (ConsumeOutcome.success (n + 1) (allowance plan) plan,
          ⟨plan, n + 1, r⟩) := by
  unfold tryConsume
  have ha1 : checkAndReset ⟨plan, n, r⟩ now = ⟨plan, n, r⟩ := by
    unfold checkAndReset
    rw [if_neg (by simp [h])]
  rw [ha1]
  rw [if_neg (by simp; omega)]

/-- One consume attempt inside the current period with the quota
used up: the rejection carries plan, usage and limit and the account
is unchanged. -/
theorem tryConsume_in_period_ge (plan : String) (n : Nat) (r now : LocalDate)
    (h : dateLe r now = false) (hn : allowance plan ≤ n) :
    tryConsume ⟨plan, n, r⟩ now
      = (ConsumeOutcome.quotaExceeded plan n (allowance plan),
          ⟨plan, n, r⟩) := by
  unfold tryConsume
  have ha1 : checkAndReset ⟨plan, n, r⟩ now = ⟨plan, n, r⟩ := by
    unfold checkAndReset
    rw [if_neg (by simp [h])]
  rw [ha1]
  rw [if_pos (by simpa using hn)]

theorem consumeIter_usage (plan : String) (r now : LocalDate)
    (h : dateLe r now = false) :
    ∀ k, k ≤ allowance plan →
      consumeIter ⟨plan, 0, r⟩ now k = ⟨plan, k, r⟩ := by
  intro k
  induction k with
  | zero => intro _; rfl
  | succ n ihn =>
    intro hk
    have hn := ihn (Nat.le_of_succ_le hk)
    unfold consumeIter
    rw [hn, tryConsume_in_period_lt plan n r now h (by omega)]

/-! ## Claim C1 -/

/-- C1: from a fresh period, tryConsume succeeds allowance-many times
in sequence, leaving the usage counter exactly at the allowance; the
next call is rejected with a QuotaExceeded outcome carrying the plan,
the current usage and the limit, and leaves the account unchanged. -/
theorem C1_sequential_exhaustion (plan : String) (r now : LocalDate)
    (h : dateLe r now = false) :
    (∀ k, k < allowance plan →
      (tryConsume (consumeIter ⟨plan, 0, r⟩ now k) now).1
        = ConsumeOutcome.success (k + 1) (allowance plan) plan) ∧
    (consumeIter ⟨plan, 0, r⟩ now (allowance plan)).usageCount
      = allowance plan ∧
    (tryConsume (consumeIter ⟨plan, 0, r⟩ now (allowance plan)) now).1
      = ConsumeOutcome.quotaExceeded plan (allowance plan) (allowance plan) ∧
    (tryConsume (consumeIter ⟨plan, 0, r⟩ now (allowance plan)) now).2
      = consumeIter ⟨plan, 0, r⟩ now (allowance plan) := by
  have hfull := consumeIter_usage plan r now h (allowance plan) le_rfl
  refine ⟨?_, by rw [hfull], ?_, ?_⟩
  · intro k hk
    rw [consumeIter_usage plan r now h k (Nat.le_of_lt hk),
      tryConsume_in_period_lt plan k r now h hk]
  · rw [hfull, tryConsume_in_period_ge plan (allowance plan) r now h le_rfl]
  · rw [hfull, tryConsume_in_period_ge plan (allowance plan) r now h le_rfl]

/-- Witness instantiating C1 for the free plan: after three calls the
counter is 3 and the fourth call is rejected in place. -/
theorem C1_sequential_exhaustion_witness :
    (consumeIter ⟨"free", 0, ⟨2026, 0, 1, 0⟩⟩ ⟨2025, 11, 15, 0⟩ 3).usageCount
      = 3 ∧
    (tryConsume (consumeIter ⟨"free", 0, ⟨2026, 0, 1, 0⟩⟩ ⟨2025, 11, 15, 0⟩ 3)
        ⟨2025, 11, 15, 0⟩).1
      = ConsumeOutcome.quotaExceeded "free" 3 3 := by
  have h := C1_sequential_exhaustion "free" ⟨2026, 0, 1, 0⟩
    ⟨2025, 11, 15, 0⟩ (by decide)
  exact ⟨h.2.1, h.2.2.1⟩

/-! ## Claim C2 -/

/-- C2: before the boundary checkAndReset is the identity; at or past
the boundary it zeroes the usage counter and moves the boundary to the
first instant of the month after now, however far past the boundary
now lies; and the two comparisons are each other's negation. -/
theorem C2_check_and_reset (a : Account) (now : LocalDate) :
    (dateLt now a.periodResetAt = true → checkAndReset a now = a) ∧
    (dateLe a.periodResetAt now = true →
      checkAndReset a now
        = { a with
            usageCount := 0
            periodResetAt :=
              { year := now.year + ((now.month + 1 : Nat) : Int) / 12
                month := (now.month + 1) % 12
                day := 1
                msOfDay := 0 } }) ∧
    dateLt now a.periodResetAt = !dateLe a.periodResetAt now := by
  refine ⟨?_, ?_, dateLt_eq_not_dateLe now a.periodResetAt⟩
  · intro h
    rw [dateLt_eq_not_dateLe] at h
    have hfalse : dateLe a.periodResetAt now = false := by simpa using h
    unfold checkAndReset
    rw [if_neg (by simp [hfalse])]
  · intro h
    have hm : nextMonthStart now
        = { year := now.year + ((now.month + 1 : Nat) : Int) / 12
            month := (now.month + 1) % 12
            day := 1
            msOfDay := 0 } := by
      unfold nextMonthStart
      simp only [LocalDate.mk.injEq, and_true]
      omega
    unfold checkAndReset
    rw [if_pos h, hm]

/-- Witness instantiating C2 at concrete instants on both sides of the
boundary, including a December rollover. -/
theorem C2_check_and_reset_witness :
    checkAndReset ⟨"pro", 7, ⟨2026, 0, 1, 0⟩⟩ ⟨2025, 11, 15, 123⟩
      = ⟨"pro", 7, ⟨2026, 0, 1, 0⟩⟩ ∧
    checkAndReset ⟨"pro", 7, ⟨2026, 0, 1, 0⟩⟩ ⟨2026, 5, 20, 42⟩
      = ⟨"pro", 0, ⟨2026, 6, 1, 0⟩⟩ ∧
    checkAndReset ⟨"pro", 7, ⟨2026, 0, 1, 0⟩⟩ ⟨2026, 11, 31, 42⟩
      = ⟨"pro", 0, ⟨2027, 0, 1, 0⟩⟩ := by
  refine ⟨(C2_check_and_reset _ _).1 (by decide), ?_, ?_⟩
  · have h := (C2_check_and_reset ⟨"pro", 7, ⟨2026, 0, 1, 0⟩⟩
      ⟨2026, 5, 20, 42⟩).2.1 (by decide)
    rw [h]
    decide
  · have h := (C2_check_and_reset ⟨"pro", 7, ⟨2026, 0, 1, 0⟩⟩
      ⟨2026, 11, 31, 42⟩).2.1 (by decide)
    rw [h]
    decide

/-! ## Claim C3 -/

/-- C3 counterexample: a failing request (missing video input, a 400
response) arriving after the boundary persists the period reset, so
the stored usage counter changes from 2 to 0 on a failure path. -/
theorem C3_counterexample :
    (handler ⟨true, false, true, true⟩ ⟨"free", 2, ⟨2026, 0, 1, 0⟩⟩
        ⟨2026, 1, 5, 0⟩).1 = HandlerResponse.badRequest ∧
    isFailureResp (handler ⟨true, false, true, true⟩
        ⟨"free", 2, ⟨2026, 0, 1, 0⟩⟩ ⟨2026, 1, 5, 0⟩).1 = true ∧
    (handler ⟨true, false, true, true⟩ ⟨"free", 2, ⟨2026, 0, 1, 0⟩⟩
        ⟨2026, 1, 5, 0⟩).2.usageCount = 0 ∧
    (⟨"free", 2, ⟨2026, 0, 1, 0⟩⟩ : Account).usageCount = 2 := by
  decide

/-- C3 amended: apart from the period reset, which is persisted even
for failing requests and may zero the counter, every failure path
leaves the stored account exactly as checkAndReset left it (or
untouched when the profile was not found), and the usage counter
increments only on the committed success path. -/
theorem C3_failure_paths_amended (env : RequestEnv) (a : Account)
    (now : LocalDate) :
    (env.profileFound = false →
      handler env a now = (HandlerResponse.notFound, a)) ∧
    (env.profileFound = true → isFailureResp (handler env a now).1 = true →
      (handler env a now).2 = checkAndReset a now) ∧
    (isFailureResp (handler env a now).1 = false →
      (handler env a now).2.usageCount
        = (checkAndReset a now).usageCount + 1) ∧
    ((handler env a now).2.usageCount ≠ a.usageCount →
      isFailureResp (handler env a now).1 = false ∨
        (dateLe a.periodResetAt now = true ∧
          (handler env a now).2.usageCount = 0)) := by
  by_cases hp : env.profileFound = true
  · have hh : handler env a now
        = (let a1 := checkAndReset a now
           let limit := allowance a1.plan
           if a1.usageCount ≥ limit then
             (HandlerResponse.quota a1.plan a1.usageCount limit, a1)
           else if !env.hasInput then (HandlerResponse.badRequest, a1)
           else if !env.downloadOk then (HandlerResponse.badRequest, a1)
           else if !env.aiOk then (HandlerResponse.serverError, a1)
           else (HandlerResponse.ok (a1.usageCount + 1) limit a1.plan,
             { a1 with usageCount := a1.usageCount + 1 })) := by
      unfold handler
      rw [hp]
      simp
    have hreset : (checkAndReset a now).usageCount = a.usageCount ∨
        (dateLe a.periodResetAt now = true ∧
          (checkAndReset a now).usageCount = 0) := by
      unfold checkAndReset
      by_cases hr : dateLe a.periodResetAt now = true
      · right
        exact ⟨hr, by rw [if_pos hr]⟩
      · left
        rw [if_neg (by simpa using hr)]
    refine ⟨fun hf => by rw [hf] at hp; exact absurd hp (by simp), ?_, ?_, ?_⟩
    · intro _ hfail
      rw [hh] at hfail ⊢
      simp only at hfail ⊢
      split_ifs at hfail ⊢ <;> simp_all [isFailureResp]
    · intro hsucc
      rw [hh] at hsucc ⊢
      simp only at hsucc ⊢
      split_ifs at hsucc ⊢ <;> simp_all [isFailureResp]
    · intro hchange
      rw [hh] at hchange ⊢
      simp only at hchange ⊢
      split_ifs at hchange ⊢ <;> simp_all [isFailureResp]
  · have hf : env.profileFound = false := by simpa using hp
    have hh : handler env a now = (HandlerResponse.notFound, a) := by
      unfold handler
      rw [hf]
      simp
    refine ⟨fun _ => hh, ?_, ?_, ?_⟩
    · intro hcontra
      rw [hcontra] at hf
      simp at hf
    · intro hsucc
      rw [hh] at hsucc
      simp [isFailureResp] at hsucc
    · intro hchange
      rw [hh] at hchange
      simp at hchange

/-- Witness instantiating the amended C3: a 400 failure path after the
boundary persists exactly the reset account, and the success path
increments the post-reset counter. -/
theorem C3_failure_paths_amended_witness :
    (handler ⟨true, false, true, true⟩ ⟨"free", 2, ⟨2026, 0, 1, 0⟩⟩
        ⟨2026, 1, 5, 0⟩).2
      = checkAndReset ⟨"free", 2, ⟨2026, 0, 1, 0⟩⟩ ⟨2026, 1, 5, 0⟩ ∧
    (handler ⟨true, true, true, true⟩ ⟨"free", 1, ⟨2026, 2, 1, 0⟩⟩
        ⟨2026, 1, 5, 0⟩).2.usageCount
      = (checkAndReset ⟨"free", 1, ⟨2026, 2, 1, 0⟩⟩
          ⟨2026, 1, 5, 0⟩).usageCount + 1 := by
  constructor
  · exact (C3_failure_paths_amended ⟨true, false, true, true⟩
      ⟨"free", 2, ⟨2026, 0, 1, 0⟩⟩ ⟨2026, 1, 5, 0⟩).2.1 rfl (by decide)
  · exact (C3_failure_paths_amended ⟨true, true, true, true⟩
      ⟨"free", 1, ⟨2026, 2, 1, 0⟩⟩ ⟨2026, 1, 5, 0⟩).2.2.1 (by decide)

/-! ## Claim C4 -/

/-- C4: the quota sequence is three separate round trips, not an
atomic transaction.  With one unit remaining, the interleaving read A,
read B, write A, write B lets both requests pass the limit check, so
both proceed to success while the persisted counter ends at the limit,
losing one consumed unit; run sequentially the same two requests give
one success and one QuotaExceeded, which is the outcome the claim
requires of every schedule. -/
theorem C4_lost_update_race (limit u : Nat) (h : u + 1 = limit) :
    raceBothRead u limit = (true, true, limit) ∧
    (∀ (plan : String) (r now : LocalDate), dateLe r now = false →
      allowance plan = limit →
      (tryConsume ⟨plan, u, r⟩ now).1
        = ConsumeOutcome.success limit limit plan ∧
      (tryConsume (tryConsume ⟨plan, u, r⟩ now).2 now).1
        = ConsumeOutcome.quotaExceeded plan limit limit) := by
  constructor
  · unfold raceBothRead readUsage writeUsage
    have hu : u < limit := by omega
    simp [hu, h]
  · intro plan r now hd hl
    have h1 := tryConsume_in_period_lt plan u r now hd (by omega)
    rw [h1]
    have h2 := tryConsume_in_period_ge plan (u + 1) r now hd (by omega)
    rw [h2]
    simp [hl, h]

/-- Witness instantiating C4 on the free plan with one unit left. -/
theorem C4_lost_update_race_witness :
    raceBothRead 2 3 = (true, true, 3) ∧
    (tryConsume ⟨"free", 2, ⟨2026, 0, 1, 0⟩⟩ ⟨2025, 11, 15, 0⟩).1
      = ConsumeOutcome.success 3 3 "free" ∧
    (tryConsume (tryConsume ⟨"free", 2, ⟨2026, 0, 1, 0⟩⟩
        ⟨2025, 11, 15, 0⟩).2 ⟨2025, 11, 15, 0⟩).1
      = ConsumeOutcome.quotaExceeded "free" 3 3 := by
  have h := C4_lost_update_race 3 2 rfl
  have h2 := h.2 "free" ⟨2026, 0, 1, 0⟩ ⟨2025, 11, 15, 0⟩ (by decide) (by decide)
  exact ⟨h.1, h2.1, h2.2⟩

/-! ## Claim C5 -/

/-- C5 counterexample: canAnalyze in types.ts does not clamp: for a
free account with usage 5 inside the period it returns remaining = -2,
which is negative and differs from max(0, 3 - 5) = 0. -/
theorem C5_counterexample :
    canAnalyzeModel ⟨"free", 5, ⟨2026, 0, 1, 0⟩⟩ ⟨2025, 11, 15, 0⟩
      = some (false, -2, ⟨"free", 5, ⟨2026, 0, 1, 0⟩⟩) ∧
    ((-2 : Int) < 0) ∧
    (-2 : Int) ≠ max 0 ((3 : Int) - 5) := by
  decide

/-- C5 amended: the AuthButton and UsageAlert components compute
remaining as max(0, allowance - usage), never negative; but canAnalyze
in types.ts returns remaining = allowance - usageCount without
clamping, which is negative exactly when the usage exceeds the
allowance. -/
theorem C5_remaining_amended :
    (∀ (plan : String) (usage limitv : Nat),
      planLimits (if plan = "" then "free" else plan) = some limitv →
      authRemaining plan usage
          = some (max 0 ((limitv : Int) - (usage : Int))) ∧
      (0 : Int) ≤ max 0 ((limitv : Int) - (usage : Int))) ∧
    (∀ (a : Account) (now : LocalDate) (limitv : Nat),
      planLimits a.plan = some limitv →
      dateLe a.periodResetAt now = false →
      canAnalyzeModel a now
        = some (decide ((limitv : Int) - (a.usageCount : Int) > 0),
            (limitv : Int) - (a.usageCount : Int), a) ∧
      (limitv < a.usageCount →
        (limitv : Int) - (a.usageCount : Int) < 0)) := by
  constructor
  · intro plan usage limitv hl
    unfold authRemaining
    rw [hl]
    exact ⟨rfl, le_max_left 0 _⟩
  · intro a now limitv hl hr
    have hmodel : canAnalyzeModel a now
        = some (decide ((limitv : Int) - (a.usageCount : Int) > 0),
            (limitv : Int) - (a.usageCount : Int), a) := by
      unfold canAnalyzeModel
      split
      · rename_i hnone
        rw [hl] at hnone
        exact absurd hnone (by simp)
      · rename_i l hsome
        rw [hl] at hsome
        have hle : l = limitv := (Option.some.inj hsome).symm
        subst hle
        rw [if_neg (by simp [hr])]
    refine ⟨hmodel, ?_⟩
    intro hlt
    omega

/-- Witness instantiating the amended C5 on a free account with usage
5: the UI computation clamps to 0, canAnalyze reports -2. -/
theorem C5_remaining_amended_witness :
    authRemaining "free" 5 = some 0 ∧
    canAnalyzeModel ⟨"free", 5, ⟨2026, 0, 1, 0⟩⟩ ⟨2025, 11, 15, 0⟩
      = some (false, -2, ⟨"free", 5, ⟨2026, 0, 1, 0⟩⟩) := by
  have h1 := (C5_remaining_amended.1 "free" 5 3 (by decide)).1
  have h2 := (C5_remaining_amended.2 ⟨"free", 5, ⟨2026, 0, 1, 0⟩⟩
    ⟨2025, 11, 15, 0⟩ 3 (by decide) (by decide)).1
  constructor
  · rw [h1]
    decide
  · rw [h2]
    decide

end RemRep
